import Mathlib

/-!
Verification of the quote layout engine of `litclock`
(`src/litclock/utils/image_generator.py`), shallowly embedded in Lean.

Modelling conventions, justified against the Python source:

* Strings are modelled as `List Char` (Python strings are sequences of code
  points; all index arithmetic in the source is per code point).
* The text-measurement capability (`font.getlength`) is an injected external
  dependency (PIL font).  It is modelled as an arbitrary function
  `List Char → Nat` (per font size: `Nat → List Char → Nat`).  Pixel advance
  widths are modelled as naturals; the source only ever compares widths, so
  any linearly ordered codomain is faithful.
* Python `int(size * 1.2)`: for every natural `size` in the relevant range the
  IEEE-754 double product `size * 1.2` differs from the exact rational
  `6*size/5` by less than `2^-40`, while the fractional part of `6*size/5` is
  one of `0, 1/5, 2/5, 3/5, 4/5`; hence truncation of the float equals
  `(6*size)/5` in natural division.  Likewise `int(q*0.5) = q/2` exactly
  (0.5 is a binary float).
* Python `usage = total/avail` comparisons (`usage > 0.85`,
  `usage > best_usage`) are modelled by the exact cross-multiplied integer
  comparisons `20*total > 17*avail` and `total > best_total`.  For the
  integer ranges reachable here (`total, avail ≤ 2^20`) the rational values
  are separated from each other and from 0.85 by far more than one double
  ulp, so float rounding cannot flip any of these strict comparisons.
* Python `min`/`max` of a list raise on empty input; the candidate size set
  of the source (`range(16, 201, 4)`) is never empty.  The models use a
  default of 0 for the empty case and the theorems carry nonemptiness
  hypotheses where relevant.
-/

set_option maxRecDepth 4000

/-- A styled run of text: one contiguous piece of an output line drawn with
one font.  `accent = true` corresponds to the highlighted time (the source
draws it with the bold, larger `time_font`); `accent = false` is the normal
quote font. -/
structure Run where
  accent : Bool
  text : List Char
  deriving DecidableEq, Repr

/-- Python `str.lower()`, modelled per character.  (Python applies full
Unicode lowering, which for the ASCII quote corpus agrees with
`Char.toLower`; all theorems below are independent of the particular
lowering function except through its use on both haystack and needle.) -/
def lowerL (l : List Char) : List Char := l.map Char.toLower

/-- Helper for `pySplit`: accumulates the current word (reversed). -/
def pySplitAux : List Char → List Char → List (List Char)
  | [], cur => if cur.isEmpty then [] else [cur.reverse]
  | c :: cs, cur =>
    if c.isWhitespace then
      if cur.isEmpty then pySplitAux cs [] else cur.reverse :: pySplitAux cs []
    else pySplitAux cs (c :: cur)

/-- Python `text.split()` (no argument): split on runs of whitespace,
discarding empty pieces. -/
def pySplit (l : List Char) : List (List Char) := pySplitAux l []

/-- The candidate-line builder of `wrap_text`:
`f'{lines[-1]} {word}'.strip()`.  Words produced by `pySplit` contain no
whitespace and committed lines neither start nor end with whitespace, so the
`strip` only ever removes the separating space when the current line is
empty. -/
def joinW (cur w : List Char) : List Char :=
  if cur.isEmpty then w else cur ++ ' ' :: w

/-- The word loop of `ImageGenerator.wrap_text` (lines 300–321).  `acc` holds
the committed lines (`lines[:-1]`), `cur` the line being grown
(`lines[-1]`). -/
def wrapWords (measure : List Char → Nat) (maxWidth : Nat) :
    List (List Char) → List (List Char) → List Char → List (List Char)
  | [], acc, cur => acc ++ [cur]
  | w :: ws, acc, cur =>
    let cand := joinW cur w
    if measure cand ≤ maxWidth then wrapWords measure maxWidth ws acc cand
    else wrapWords measure maxWidth ws (acc ++ [cur]) w

/-- `ImageGenerator.wrap_text(text, font, max_width)`.  The source returns
`'\n'.join(lines)`; since no line contains `'\n'` we keep the line list and
model the join explicitly with `joinNL` where the source re-splits. -/
def wrapText (measure : List Char → Nat) (text : List Char) (maxWidth : Nat) :
    List (List Char) :=
  wrapWords measure maxWidth (pySplit text) [] []

/-- `int(size * 1.2)` — the line height used at lines 413, 738 and 765 of the
source (truncating float multiplication; see the header note for why this is
exactly `6*size/5` in natural division). -/
def lineHeight (size : Nat) : Nat := 6 * size / 5

/-- Python `min(sizes)` (0 for the empty list, which the source never
passes). -/
def minSize (l : List Nat) : Nat := (l.min?).getD 0

/-- Python `max(sizes)` (0 for the empty list). -/
def maxSize (l : List Nat) : Nat := (l.max?).getD 0

/-- The candidate font sizes loaded in `__init__`: `range(16, 201, 4)`,
ascending. -/
def sizesAsc : List Nat := List.range' 16 47 4

/-- The scan order of `calculate_optimal_font_size`:
`sorted(self.fonts['normal'].keys(), reverse=True)`. -/
def sizesDesc : List Nat := sizesAsc.reverse

/-- The descending scan of `calculate_optimal_font_size` (lines 403–437).
`best` carries `(best_size, best_total, best_wrapped)`; the source tracks
`best_usage = best_total/avail`, and with a fixed positive `avail` the
comparison `usage > best_usage` is exactly `total > best_total`.
Returns `some (size, wrapped)` on early exit or when a best candidate was
recorded, `none` when no candidate fit. -/
def selGo (measure : Nat → List Char → Nat) (text : List Char)
    (availW availH : Nat) :
    List Nat → Option (Nat × Nat × List (List Char)) →
    Option (Nat × List (List Char))
  | [], none => none
  | [], some (bs, _, bw) => some (bs, bw)
  | s :: rest, best =>
    let w := wrapText (measure s) text availW
    let total := w.length * lineHeight s
    if total ≤ availH then
      if 17 * availH < 20 * total ∧ 3 ≤ w.length then some (s, w)
      else
        match best with
        | none => selGo measure text availW availH rest (some (s, total, w))
        | some (bs, bt, bw) =>
          if bt < total ∧ 3 ≤ w.length then
            selGo measure text availW availH rest (some (s, total, w))
          else selGo measure text availW availH rest (some (bs, bt, bw))
    else selGo measure text availW availH rest best

/-- The core of `calculate_optimal_font_size` once the available width and
height have been computed: scan the sizes, return the early-exit or best
candidate, otherwise fall back to the smallest size (lines 439–447). -/
def selectFont (measure : Nat → List Char → Nat) (sizes : List Nat)
    (text : List Char) (availW availH : Nat) : Nat × List (List Char) :=
  match selGo measure text availW availH sizes none with
  | some r => r
  | none => (minSize sizes, wrapText (measure (minSize sizes)) text availW)

/-- `ImageGenerator.calculate_optimal_font_size(text, display_time,
max_width, max_height, metadata_height)` (lines 380–447):
`available_height = max_height - metadata_height - 80`,
`available_width = max_width - 80`, then the descending scan over the
candidate sizes.  (`display_time` is unused by the source function.)
The subtractions cannot go negative for the source's fixed geometry. -/
def calcOptimalFontSize (measure : Nat → List Char → Nat) (text : List Char)
    (maxW maxH metaH : Nat) : Nat × List (List Char) :=
  selectFont measure sizesDesc text (maxW - 80) (maxH - metaH - 80)

/-- The early-exit condition of the selector at a candidate size: the
wrapped block fits, usage exceeds 0.85 (`17*availH < 20*total`), and the
line count is at least 3 (lines 432–435 of the source). -/
def stopCond (measure : Nat → List Char → Nat) (text : List Char)
    (availW availH s : Nat) : Prop :=
  (wrapText (measure s) text availW).length * lineHeight s ≤ availH ∧
  17 * availH < 20 * ((wrapText (measure s) text availW).length * lineHeight s) ∧
  3 ≤ (wrapText (measure s) text availW).length

instance (measure : Nat → List Char → Nat) (text : List Char)
    (availW availH s : Nat) : Decidable (stopCond measure text availW availH s) := by
  unfold stopCond; infer_instance

/-- Helper for `firstMatch`: scan the haystack from index `i`. -/
def firstMatchAux (needle : List Char) : List Char → Nat → Option Nat
  | hay, i =>
    if needle.isPrefixOf hay then some i
    else
      match hay with
      | [] => none
      | _ :: t => firstMatchAux needle t (i + 1)

/-- Python `haystack.find(needle)` restricted to the found case
(`needle in haystack` guards every use in the source): index of the first
occurrence, `none` when absent.  `find('')` is 0, as in Python. -/
def firstMatch (hay needle : List Char) : Option Nat := firstMatchAux needle hay 0

/-- Python `text.split('\n')`: split at every newline, keeping empty
pieces; never returns the empty list. -/
def splitNL : List Char → List (List Char)
  | [] => [[]]
  | c :: cs =>
    if c = '\n' then [] :: splitNL cs
    else
      match splitNL cs with
      | [] => [[c]]
      | l :: ls => (c :: l) :: ls

/-- Python `'\n'.join(lines)`. -/
def joinNL : List (List Char) → List Char
  | [] => []
  | [l] => l
  | l :: ls => l ++ '\n' :: joinNL ls

/-- The per-line run splitting of `draw_quote_with_highlighted_time`
(lines 519–586), for a match spanning `[s, e)` of the joined text.
`cur` is `current_pos`.  The three guards are the source's three branches
(line containing the match start; line disjoint from the match; line
continuing a match started above); the final `[]` is unreachable whenever
`s ≤ e`.  Empty `before`/`after` segments are not drawn by the
source (guards `line_start_idx > 0`, `line_end_idx < line_len`); the `time`
segment is always drawn. -/
def hlLine (s e cur : Nat) (line : List Char) : List Run :=
  if cur ≤ s ∧ s < cur + line.length + 1 then
    (if 0 < s - cur then [⟨false, line.take (s - cur)⟩] else []) ++
      ⟨true, (line.drop (s - cur)).take (min (e - cur) line.length - (s - cur))⟩ ::
        (if min (e - cur) line.length < line.length then
          [⟨false, line.drop (min (e - cur) line.length)⟩] else [])
  else if cur + line.length ≤ s ∨ e ≤ cur then [⟨false, line⟩]
  else if cur < e then
    ⟨true, line.take (min (e - cur) line.length)⟩ ::
      (if min (e - cur) line.length < line.length then
        [⟨false, line.drop (min (e - cur) line.length)⟩] else [])
  else []

/-- The line loop of `draw_quote_with_highlighted_time` (lines 524–586):
split every line, advancing `current_pos` by `line_len + 1` (the `+ 1`
accounts for the joining newline). -/
def hlGo (s e : Nat) : List (List Char) → Nat → List (List Run)
  | [], _ => []
  | line :: rest, cur => hlLine s e cur line :: hlGo s e rest (cur + line.length + 1)

/-- `ImageGenerator.draw_quote_with_highlighted_time` (lines 449–596) as a
run splitter: search for `time_string.lower()` in `text.lower()`; if found,
split each line of `text.split('\n')` around the match
(`end_idx = start_idx + len(time_string)`); otherwise draw every line as
plain normal text (`multiline_text`). -/
def drawQuote (text time : List Char) : List (List Run) :=
  match firstMatch (lowerL text) (lowerL time) with
  | some s => hlGo s (s + time.length) (splitNL text) 0
  | none => (splitNL text).map (fun l => [⟨false, l⟩])

/-- Concatenation of the run texts of one line, in order. -/
def lineCat (rs : List Run) : List Char := (rs.map Run.text).flatten

/-- Concatenation of the texts of all accent (highlighted-time) runs, in
line order and within-line order. -/
def accentCat (rss : List (List Run)) : List Char :=
  ((rss.flatten.filter Run.accent).map Run.text).flatten

/-- Concatenation of the texts of all normal-plane runs, in line order and
within-line order. -/
def normalCat (rss : List (List Run)) : List Char :=
  ((rss.flatten.filter (fun r => !r.accent)).map Run.text).flatten

/-- The ellipsis string of the caption truncation code (line 726): three
ASCII dots. -/
def ellipsisL : List Char := ['.', '.', '.']

/-- The initial caption size snap of `create_image` (lines 686–697):
`int(quote_font_size * 0.5)`, and if that size is not an available size,
the largest available size below it, falling back to the smallest
available size. -/
def snapMetaSize (half : Nat) : Nat :=
  if half ∈ sizesAsc then half
  else
    match sizesAsc.filter (· ≤ half) with
    | [] => minSize sizesAsc
    | l => maxSize l

/-- The caption size-reduction loop of `create_image` (lines 711–721),
walking the available sizes downward from the snapped start while the
caption is too wide: stop at the first size that fits, or at the smallest
available size. -/
def shrinkSize (measure : Nat → List Char → Nat) (text : List Char)
    (maxW : Nat) : List Nat → Nat
  | [] => 0
  | [s] => s
  | s :: rest =>
    if measure s text ≤ maxW then s
    else shrinkSize measure text maxW rest

/-- The caption truncation loop of `create_image` (lines 730–735):
`for i in range(len(meta_text) - 1, 0, -1)`, accepting the first prefix for
which `prefix + "..."` fits; if no prefix fits, `meta_text` is left
unchanged.  `fuel` is the current prefix length `i`. -/
def truncLoop (measure1 : List Char → Nat) (metaText : List Char)
    (maxW : Nat) : Nat → List Char
  | 0 => metaText
  | i + 1 =>
    if measure1 (metaText.take (i + 1) ++ ellipsisL) ≤ maxW then
      metaText.take (i + 1) ++ ellipsisL
    else truncLoop measure1 metaText maxW i

/-- The caption fitting step of `create_image` (lines 684–736): snap the
initial size from the quote size, shrink through the available sizes while
too wide, then truncate with an ellipsis if still too wide.  Returns the
final `(meta_font_size, meta_text)`. -/
def fitCaption (measure : Nat → List Char → Nat) (metaText : List Char)
    (qsize maxW : Nat) : Nat × List Char :=
  let start := snapMetaSize (qsize / 2)
  let descBelow := (sizesAsc.filter (· ≤ start)).reverse
  let sz := shrinkSize measure metaText maxW descBelow
  let txt :=
    if maxW < measure sz metaText then
      truncLoop (measure sz) metaText maxW (metaText.length - 1)
    else metaText
  (sz, txt)

/-- The standalone-time font size of `create_image` (lines 779–792):
`larger_size = int(quote_font_size * 1.2)`; the smallest available size
`≥ larger_size`, or the largest available size if none is. -/
def standaloneSize (q : Nat) : Nat :=
  match sizesAsc.find? (fun s => decide (6 * q / 5 ≤ s)) with
  | some s => s
  | none => maxSize sizesAsc

/-- The layout-relevant output of `create_image`. -/
structure Plan where
  quoteRuns : List (List Run)
  standalone : Option (Nat × List Char)
  captionText : List Char
  captionSize : Nat
  metaHeight : Nat
  quoteSize : Nat
  wrapped : List (List Char)
  deriving DecidableEq, Repr

/-- `ImageGenerator.create_image` (lines 652–817), layout part, with the
source's fixed geometry (960×680 canvas, padding 40, caption width 880).
`meta_text = f"—{book}, {author}" if book and author else ""`; when
non-empty, a first selector pass with `metadata_height = 0` feeds the
caption fitter, whose final size gives `metadata_height`; a second selector
pass uses the real height.  The quote is drawn highlighted when
`display_time` is non-empty and occurs (case-insensitively) in the raw
quote; otherwise it is drawn plain, with a separate standalone time run
when `display_time` is non-empty. -/
def createImagePlan (measure : Nat → List Char → Nat)
    (quote time title author : List Char) : Plan :=
  let metaText0 : List Char :=
    if title.isEmpty || author.isEmpty then []
    else '—' :: (title ++ ',' :: ' ' :: author)
  let firstPass := calcOptimalFontSize measure quote 960 680 0
  let cap :=
    if metaText0.isEmpty then (0, ([] : List Char))
    else fitCaption measure metaText0 firstPass.1 880
  let metaHeight := if metaText0.isEmpty then 0 else lineHeight cap.1
  let second := calcOptimalFontSize measure quote 960 680 metaHeight
  if time ≠ [] ∧ (firstMatch (lowerL quote) (lowerL time)).isSome then
    { quoteRuns := drawQuote (joinNL second.2) time
      standalone := none
      captionText := cap.2, captionSize := cap.1, metaHeight := metaHeight
      quoteSize := second.1, wrapped := second.2 }
  else
    { quoteRuns := second.2.map (fun l => [⟨false, l⟩])
      standalone :=
        if time ≠ [] then some (standaloneSize second.1, time) else none
      captionText := cap.2, captionSize := cap.1, metaHeight := metaHeight
      quoteSize := second.1, wrapped := second.2 }

theorem wrapWords_width (measure : List Char → Nat) (maxW : Nat) :
    ∀ (ws acc : List (List Char)) (cur : List Char),
      (∀ l ∈ acc, measure l ≤ maxW) → measure cur ≤ maxW →
      (∀ w ∈ ws, measure w ≤ maxW) →
      ∀ l ∈ wrapWords measure maxW ws acc cur, measure l ≤ maxW := by
  intro ws
  induction ws with
  | nil =>
    intro acc cur hacc hcur _ l hl
    simp only [wrapWords, List.mem_append, List.mem_singleton] at hl
    rcases hl with h | h
    · exact hacc l h
    · exact h ▸ hcur
  | cons w ws ih =>
    intro acc cur hacc hcur hws l hl
    simp only [wrapWords] at hl
    split at hl
    · exact ih acc (joinW cur w) hacc (by assumption) (fun x hx => hws x (by simp [hx])) l hl
    · refine ih (acc ++ [cur]) w ?_ (hws w (by simp)) (fun x hx => hws x (by simp [hx])) l hl
      intro x hx
      rcases List.mem_append.mp hx with h | h
      · exact hacc x h
      · simp at h; exact h ▸ hcur

theorem pySplitAux_no_ws (l : List Char) :
    (∀ c ∈ l, c.isWhitespace = false) → ∀ cur : List Char,
      pySplitAux l cur =
        if cur.isEmpty && l.isEmpty then [] else [cur.reverse ++ l] := by
  induction l with
  | nil =>
    intro _ cur
    simp [pySplitAux]
  | cons c cs ih =>
    intro h cur
    have hc : c.isWhitespace = false := h c (by simp)
    simp only [pySplitAux, hc, Bool.false_eq_true, if_false]
    rw [ih (fun x hx => h x (by simp [hx])) (c :: cur)]
    simp [List.isEmpty]

theorem pySplit_single (w : List Char) (hne : w ≠ [])
    (hnw : ∀ c ∈ w, c.isWhitespace = false) : pySplit w = [w] := by
  unfold pySplit
  rw [pySplitAux_no_ws w hnw []]
  rcases w with _ | _ <;> simp_all [List.isEmpty]

theorem wrapText_overwide (measure : List Char → Nat) (w : List Char)
    (maxW : Nat) (hne : w ≠ []) (hnw : ∀ c ∈ w, c.isWhitespace = false)
    (hover : maxW < measure w) :
    wrapText measure w maxW = [[], w] := by
  unfold wrapText
  rw [pySplit_single w hne hnw]
  simp only [wrapWords, joinW, List.isEmpty]
  have : ¬ measure w ≤ maxW := by omega
  simp [wrapWords, this]

theorem selGo_some_of_best (measure : Nat → List Char → Nat) (text : List Char)
    (availW availH : Nat) :
    ∀ (sizes : List Nat) (b : Nat × Nat × List (List Char)),
      ∃ r, selGo measure text availW availH sizes (some b) = some r := by
  intro sizes
  induction sizes with
  | nil => intro ⟨bs, bt, bw⟩; exact ⟨(bs, bw), rfl⟩
  | cons s rest ih =>
    intro ⟨bs, bt, bw⟩
    simp only [selGo]
    split
    · split
      · exact ⟨_, rfl⟩
      · split <;> exact ih _
    · exact ih _

theorem selGo_none_iff (measure : Nat → List Char → Nat) (text : List Char)
    (availW availH : Nat) :
    ∀ sizes : List Nat,
      selGo measure text availW availH sizes none = none →
      ∀ s ∈ sizes,
        availH < (wrapText (measure s) text availW).length * lineHeight s := by
  intro sizes
  induction sizes with
  | nil => intro _ s hs; simp at hs
  | cons s rest ih =>
    intro h t ht
    simp only [selGo] at h
    split at h
    · split at h
      · exact absurd h (by simp)
      · obtain ⟨r, hr⟩ := selGo_some_of_best measure text availW availH rest _
        rw [hr] at h; exact absurd h (by simp)
    · rcases List.mem_cons.mp ht with rfl | ht'
      · omega
      · exact ih h t ht'

theorem selGo_some_fits (measure : Nat → List Char → Nat) (text : List Char)
    (availW availH : Nat) :
    ∀ (sizes : List Nat) (best : Option (Nat × Nat × List (List Char))),
      (∀ bs bt bw, best = some (bs, bt, bw) →
        bt = bw.length * lineHeight bs ∧ bt ≤ availH) →
      ∀ r, selGo measure text availW availH sizes best = some r →
        r.2.length * lineHeight r.1 ≤ availH := by
  intro sizes
  induction sizes with
  | nil =>
    intro best hbest r hr
    match best, hr with
    | some (bs, bt, bw), hr =>
      obtain ⟨h1, h2⟩ := hbest bs bt bw rfl
      have : r = (bs, bw) :=
        ((by simpa [selGo] using hr : (bs, bw) = r)).symm
      subst this; simpa [← h1] using h2
  | cons s rest ih =>
    intro best hbest r hr
    simp only [selGo] at hr
    split at hr
    · rename_i hfit
      split at hr
      · have : r = (s, wrapText (measure s) text availW) :=
          ((by simpa using hr : (s, wrapText (measure s) text availW) = r)).symm
        subst this; exact hfit
      · split at hr
        · exact ih _ (by rintro bs bt bw ⟨rfl, rfl, rfl⟩; exact ⟨rfl, hfit⟩) r hr
        · rename_i bs bt bw
          split at hr
          · exact ih _ (by rintro bs' bt' bw' ⟨rfl, rfl, rfl⟩; exact ⟨rfl, hfit⟩) r hr
          · exact ih _ (by rintro bs' bt' bw' ⟨rfl, rfl, rfl⟩; exact hbest bs bt bw rfl) r hr
    · exact ih best hbest r hr

/-- Claim C1: for every quote text and valid geometry, the font-size
selector never returns a size whose total height (line count of its returned
wrapped text times the line height for that size) exceeds the available
height, unless no candidate size fit at all, in which case the returned size
equals the smallest candidate in the set and no error is raised (the model
is a total function). -/
theorem selector_fit_or_smallest (measure : Nat → List Char → Nat)
    (sizes : List Nat) (text : List Char) (availW availH : Nat)
    (hne : sizes ≠ []) (hH : 0 < availH) :
    (selectFont measure sizes text availW availH).2.length *
        lineHeight (selectFont measure sizes text availW availH).1 ≤ availH ∨
    ((selectFont measure sizes text availW availH).1 = minSize sizes ∧
     ∀ s ∈ sizes,
       availH < (wrapText (measure s) text availW).length * lineHeight s) := by
  unfold selectFont
  rcases h : selGo measure text availW availH sizes none with _ | r
  · exact Or.inr ⟨rfl, selGo_none_iff measure text availW availH sizes h⟩
  · left
    exact selGo_some_fits measure text availW availH sizes none
      (by rintro bs bt bw ⟨⟩) r h

/-- Witness for claim C1 at a concrete measure, size set and geometry. -/
theorem selector_fit_or_smallest_witness :
    (([200, 16] : List Nat) ≠ [] ∧ 0 < 100) ∧
    ((selectFont (fun s l => s * l.length) [200, 16] "hi there".toList 60 100).2.length *
        lineHeight (selectFont (fun s l => s * l.length) [200, 16] "hi there".toList 60 100).1 ≤ 100 ∨
    ((selectFont (fun s l => s * l.length) [200, 16] "hi there".toList 60 100).1 = minSize [200, 16] ∧
     ∀ s ∈ ([200, 16] : List Nat),
       100 < (wrapText ((fun s l => s * l.length) s) "hi there".toList 60).length * lineHeight s)) :=
  ⟨⟨by decide, by decide⟩,
    selector_fit_or_smallest (fun s l => s * l.length) [200, 16] "hi there".toList 60 100
      (by decide) (by decide)⟩

theorem selGo_early (measure : Nat → List Char → Nat) (text : List Char)
    (availW availH s : Nat) :
    ∀ (sizes : List Nat), sizes.Pairwise (· > ·) → s ∈ sizes →
      stopCond measure text availW availH s →
      (∀ t ∈ sizes, s < t → ¬ stopCond measure text availW availH t) →
      ∀ best, selGo measure text availW availH sizes best =
        some (s, wrapText (measure s) text availW) := by
  intro sizes
  induction sizes with
  | nil => intro _ hmem; simp at hmem
  | cons h rest ih =>
    intro hpair hmem hstop hmax best
    rcases List.mem_cons.mp hmem with rfl | hmem'
    · obtain ⟨h1, h2, h3⟩ := hstop
      simp only [selGo]
      rw [if_pos h1, if_pos ⟨h2, h3⟩]
    · have hgt : h > s := (List.pairwise_cons.mp hpair).1 s hmem'
      have hnot : ¬ stopCond measure text availW availH h :=
        hmax h (by simp) hgt
      have hrest : ∀ t ∈ rest, s < t → ¬ stopCond measure text availW availH t :=
        fun t ht => hmax t (by simp [ht])
      have hpair' := (List.pairwise_cons.mp hpair).2
      simp only [selGo]
      split
      · rename_i hfit
        have hne : ¬ (17 * availH <
            20 * ((wrapText (measure h) text availW).length * lineHeight h) ∧
            3 ≤ (wrapText (measure h) text availW).length) := by
          intro hc; exact hnot ⟨hfit, hc.1, hc.2⟩
        rw [if_neg hne]
        rcases best with _ | ⟨bs, bt, bw⟩
        · exact ih hpair' hmem' hstop hrest _
        · show (if _ then _ else _) = _
          split <;> exact ih hpair' hmem' hstop hrest _
      · exact ih hpair' hmem' hstop hrest best

/-- Claim C6: during the descending scan, as soon as a fitting candidate
has usage strictly greater than 0.85 and line count at least 3, the selector
stops immediately and returns that candidate and its wrapped text — i.e. it
returns the largest candidate size satisfying the conditions (the first one
met in the strictly descending scan) without examining smaller sizes. -/
theorem selector_early_exit (measure : Nat → List Char → Nat)
    (sizes : List Nat) (text : List Char) (availW availH s : Nat)
    (hpair : sizes.Pairwise (· > ·)) (hmem : s ∈ sizes)
    (hstop : stopCond measure text availW availH s)
    (hmax : ∀ t ∈ sizes, s < t → ¬ stopCond measure text availW availH t)
    (hH : 0 < availH) :
    selectFont measure sizes text availW availH =
      (s, wrapText (measure s) text availW) := by
  unfold selectFont
  rw [selGo_early measure text availW availH s sizes hpair hmem hstop hmax none]

/-- Witness for claim C6 at a concrete measure, size set and geometry. -/
theorem selector_early_exit_witness :
    (([12, 8] : List Nat).Pairwise (· > ·) ∧ (8 ∈ ([12, 8] : List Nat)) ∧
      stopCond (fun s l => s * l.length) "a a a a".toList 8 40 8 ∧
      (∀ t ∈ ([12, 8] : List Nat), 8 < t →
        ¬ stopCond (fun s l => s * l.length) "a a a a".toList 8 40 t) ∧
      0 < 40) ∧
    selectFont (fun s l => s * l.length) [12, 8] "a a a a".toList 8 40 =
      (8, wrapText ((fun s l => s * l.length) 8) "a a a a".toList 8) :=
  ⟨⟨by decide, by decide, by decide, by decide, by decide⟩,
    selector_early_exit (fun s l => s * l.length) [12, 8] "a a a a".toList 8 40 8
      (by decide) (by decide) (by decide) (by decide) (by decide)⟩

theorem selGo_twoline_keep (measure : Nat → List Char → Nat) (text : List Char)
    (availW availH : Nat) (word : List Char) :
    ∀ (sizes : List Nat),
      (∀ s ∈ sizes, wrapText (measure s) text availW = [[], word]) →
      ∀ bs bt bw, selGo measure text availW availH sizes (some (bs, bt, bw)) =
        some (bs, bw) := by
  intro sizes
  induction sizes with
  | nil => intro _ bs bt bw; rfl
  | cons s rest ih =>
    intro hw bs bt bw
    have hws : wrapText (measure s) text availW = [[], word] := hw s (by simp)
    have hrest : ∀ t ∈ rest, wrapText (measure t) text availW = [[], word] :=
      fun t ht => hw t (by simp [ht])
    simp only [selGo, hws]
    split
    · rw [if_neg (by simp), if_neg (by simp)]
      exact ih hrest bs bt bw
    · exact ih hrest bs bt bw

theorem selGo_twoline_find (measure : Nat → List Char → Nat) (text : List Char)
    (availW availH : Nat) (word : List Char) :
    ∀ (sizes : List Nat),
      (∀ s ∈ sizes, wrapText (measure s) text availW = [[], word]) →
      selGo measure text availW availH sizes none =
        (sizes.find? (fun s => decide (2 * lineHeight s ≤ availH))).map
          (fun s => (s, [[], word])) := by
  intro sizes
  induction sizes with
  | nil => intro _; rfl
  | cons s rest ih =>
    intro hw
    have hws : wrapText (measure s) text availW = [[], word] := hw s (by simp)
    have hrest : ∀ t ∈ rest, wrapText (measure t) text availW = [[], word] :=
      fun t ht => hw t (by simp [ht])
    simp only [selGo, hws, List.find?]
    by_cases hfit : 2 * lineHeight s ≤ availH
    · rw [if_pos (by simpa [two_mul, Nat.mul_comm] using hfit),
        if_neg (by simp)]
      have : (decide (2 * lineHeight s ≤ availH)) = true := by simpa using hfit
      rw [this]
      simp only [Option.map_some]
      exact selGo_twoline_keep measure text availW availH word rest hrest s _ _
    · rw [if_neg (by simpa [two_mul, Nat.mul_comm] using hfit)]
      have : (decide (2 * lineHeight s ≤ availH)) = false := by simpa using hfit
      rw [this]
      exact ih hrest

/-- Claim C3 (amended): a single unbroken non-empty word that is wider
than the available width at every candidate size wraps to exactly two lines
— an empty first line followed by the word — at every size; and the
selector, without raising, returns the first candidate of the scan whose
two-line block fits the available height (the largest such size when the
scan is descending), falling back to the smallest candidate when none
fits. -/
theorem long_word_layout (measure : Nat → List Char → Nat) (sizes : List Nat)
    (word : List Char) (availW availH : Nat)
    (hword : word ≠ []) (hnws : ∀ c ∈ word, c.isWhitespace = false)
    (hover : ∀ s ∈ sizes, availW < measure s word) (hne : sizes ≠ []) :
    (∀ s ∈ sizes, wrapText (measure s) word availW = [[], word]) ∧
    selectFont measure sizes word availW availH =
      (match sizes.find? (fun s => decide (2 * lineHeight s ≤ availH)) with
       | some s => (s, [[], word])
       | none => (minSize sizes, [[], word])) := by
  have hwrap : ∀ s ∈ sizes, wrapText (measure s) word availW = [[], word] :=
    fun s hs => wrapText_overwide (measure s) word availW hword hnws (hover s hs)
  refine ⟨hwrap, ?_⟩
  unfold selectFont
  rw [selGo_twoline_find measure word availW availH word sizes hwrap]
  rcases hfind : sizes.find? (fun s => decide (2 * lineHeight s ≤ availH)) with _ | s
  · simp only [Option.map_none]
    have hmin : minSize sizes ∈ sizes := by
      rcases hmm : sizes.min? with _ | m
      · rcases sizes with _ | ⟨a, l⟩
        · exact absurd rfl hne
        · simp [List.min?] at hmm
      · have := List.min?_mem (fun a b : Nat => min_choice a b) hmm
        simpa [minSize, hmm] using this
    simp [hwrap (minSize sizes) hmin]
  · rfl

/-- Witness for claim C3's amended theorem at a concrete instance. -/
theorem long_word_layout_witness :
    (("abc".toList ≠ []) ∧ (∀ c ∈ "abc".toList, c.isWhitespace = false) ∧
      (∀ s ∈ ([12, 8] : List Nat), 20 < (fun (s : Nat) (l : List Char) => s * l.length) s "abc".toList) ∧
      (([12, 8] : List Nat) ≠ [])) ∧
    ((∀ s ∈ ([12, 8] : List Nat),
        wrapText ((fun (s : Nat) (l : List Char) => s * l.length) s) "abc".toList 20 = [[], "abc".toList]) ∧
      selectFont (fun (s : Nat) (l : List Char) => s * l.length) [12, 8] "abc".toList 20 50 =
        (match ([12, 8] : List Nat).find? (fun s => decide (2 * lineHeight s ≤ 50)) with
         | some s => (s, [[], "abc".toList])
         | none => (minSize [12, 8], [[], "abc".toList]))) :=
  ⟨⟨by decide, by decide, by decide, by decide⟩,
    long_word_layout (fun s l => s * l.length) [12, 8] "abc".toList 20 50
      (by decide) (by decide) (by decide) (by decide)⟩

/-- Claim C5: for every text, measure and max_width such that max_width is
at least the measured width of every single word of the text (and the empty
string measures 0, as with PIL's `getlength`), every line returned by the
word wrapper has measured width at most max_width. -/
theorem wrap_lines_within_width (measure : List Char → Nat) (text : List Char)
    (maxW : Nat) (hempty : measure [] = 0)
    (hwords : ∀ w ∈ pySplit text, measure w ≤ maxW) :
    ∀ l ∈ wrapText measure text maxW, measure l ≤ maxW := by
  unfold wrapText
  exact wrapWords_width measure maxW (pySplit text) [] []
    (by intro l hl; simp at hl) (by omega) hwords

/-- Witness for claim C5 at a concrete measure and text. -/
theorem wrap_lines_within_width_witness :
    ((fun l : List Char => l.length) [] = 0 ∧
      ∀ w ∈ pySplit "ab c".toList, (fun l : List Char => l.length) w ≤ 2) ∧
    ∀ l ∈ wrapText (fun l : List Char => l.length) "ab c".toList 2,
      (fun l : List Char => l.length) l ≤ 2 :=
  ⟨⟨by decide, by decide⟩,
    wrap_lines_within_width (fun l => l.length) "ab c".toList 2
      (by decide) (by decide)⟩

theorem take_mid_drop (l : List Char) (a b : Nat) (hab : a ≤ b) :
    l.take a ++ ((l.drop a).take (b - a) ++ l.drop b) = l := by
  have h1 : l.drop b = (l.drop a).drop (b - a) := by
    rw [List.drop_drop]; congr 1; omega
  rw [h1, List.take_append_drop, List.take_append_drop]

theorem hlLine_cat (s e cur : Nat) (line : List Char) (hse : s ≤ e) :
    lineCat (hlLine s e cur line) = line := by
  unfold hlLine lineCat
  split_ifs with h1 h2 h3 h4 h5 h6 h7 <;>
    simp only [List.map_cons, List.map_nil, List.map_append, List.flatten,
      List.flatten_cons, List.flatten_nil, List.append_nil, List.nil_append,
      List.singleton_append, List.cons_append]
  · exact take_mid_drop line (s - cur) (min (e - cur) line.length) (by omega)
  · have hm : min (e - cur) line.length = line.length := by omega
    rw [hm,
      show (line.drop (s - cur)).take (line.length - (s - cur)) = line.drop (s - cur) from
        List.take_of_length_le (by simp),
      List.take_append_drop]
  · have ha : s - cur = 0 := by omega
    rw [ha, List.drop_zero, Nat.sub_zero, List.take_append_drop]
  · have ha : s - cur = 0 := by omega
    have hm : min (e - cur) line.length = line.length := by omega
    rw [ha, hm, List.drop_zero, Nat.sub_zero, List.take_length]
  · rw [List.take_append_drop]
  · have hm : min (e - cur) line.length = line.length := by omega
    rw [hm, List.take_length]
  · omega

theorem hlLine_accent (s e cur : Nat) (line : List Char) (hse : s ≤ e) :
    (((hlLine s e cur line).filter Run.accent).map Run.text).flatten =
      (line.take (e - cur)).drop (s - cur) := by
  unfold hlLine
  split_ifs with h1 h2 h3 h4 h5 h6 h7 <;>
    simp only [List.filter_append, List.filter_cons, List.filter_nil,
      List.map_cons, List.map_nil, List.map_append, List.flatten_cons,
      List.flatten_nil, List.append_nil, List.nil_append, Run.accent,
      Bool.false_eq_true, if_false, if_true]
  · rw [List.drop_take, List.take_eq_take]
    simp only [List.length_drop]
    omega
  · rw [List.drop_take, List.take_eq_take]
    simp only [List.length_drop]
    omega
  · rw [List.drop_take, List.take_eq_take]
    simp only [List.length_drop]
    omega
  · rw [List.drop_take, List.take_eq_take]
    simp only [List.length_drop]
    omega
  · refine (List.drop_eq_nil_of_le ?_).symm
    rw [List.length_take]
    omega
  · have ha : s - cur = 0 := by omega
    rw [ha, List.drop_zero, List.take_eq_take]
    omega
  · have ha : s - cur = 0 := by omega
    rw [ha, List.drop_zero, List.take_eq_take]
    omega
  · omega

theorem hlLine_normal (s e cur : Nat) (line : List Char) (hse : s ≤ e) :
    (((hlLine s e cur line).filter (fun r => !r.accent)).map Run.text).flatten =
      line.take (s - cur) ++ line.drop (e - cur) := by
  unfold hlLine
  split_ifs with h1 h2 h3 h4 h5 h6 h7 <;>
    simp only [List.filter_append, List.filter_cons, List.filter_nil,
      List.map_cons, List.map_nil, List.map_append, List.flatten_cons,
      List.flatten_append, List.flatten_nil, List.append_nil, List.nil_append,
      Run.accent, Bool.not_false, Bool.not_true, Bool.false_eq_true, if_false,
      if_true]
  · rw [show min (e - cur) line.length = e - cur by omega]
  · rw [List.drop_eq_nil_of_le (by omega), List.append_nil]
  · rw [show s - cur = 0 by omega, List.take_zero, List.nil_append,
      show min (e - cur) line.length = e - cur by omega]
  · rw [show s - cur = 0 by omega, List.take_zero, List.nil_append,
      List.drop_eq_nil_of_le (by omega)]
  · rcases h5 with h5 | h5
    · rw [List.take_of_length_le (by omega), List.drop_eq_nil_of_le (by omega),
        List.append_nil]
    · rw [show s - cur = 0 by omega, List.take_zero, List.nil_append,
        show e - cur = 0 by omega, List.drop_zero]
  · rw [show s - cur = 0 by omega, List.take_zero, List.nil_append,
      show min (e - cur) line.length = e - cur by omega]
  · rw [show s - cur = 0 by omega, List.take_zero, List.nil_append,
      List.drop_eq_nil_of_le (by omega)]
  · omega

theorem splitNL_ne_nil (text : List Char) : splitNL text ≠ [] := by
  cases text with
  | nil => simp [splitNL]
  | cons c cs =>
    simp only [splitNL]
    split
    · simp
    · rcases h : splitNL cs with _ | ⟨l, ls⟩ <;> simp

theorem joinNL_splitNL (text : List Char) : joinNL (splitNL text) = text := by
  induction text with
  | nil => rfl
  | cons c cs ih =>
    simp only [splitNL]
    split
    · rename_i hc
      rcases h : splitNL cs with _ | ⟨l, ls⟩
      · exact absurd h (splitNL_ne_nil cs)
      · rw [h] at ih
        subst hc
        simp [joinNL, ih]
    · rcases h : splitNL cs with _ | ⟨l, ls⟩
      · exact absurd h (splitNL_ne_nil cs)
      · rw [h] at ih
        rcases ls with _ | ⟨l2, ls2⟩
        · simpa [joinNL] using congrArg (c :: ·) ih
        · simpa [joinNL] using congrArg (c :: ·) ih

theorem splitNL_no_newline (text : List Char) :
    ∀ l ∈ splitNL text, '\n' ∉ l := by
  induction text with
  | nil => intro l hl; simp [splitNL] at hl; simp [hl]
  | cons c cs ih =>
    intro l hl
    simp only [splitNL] at hl
    split at hl
    · rcases List.mem_cons.mp hl with rfl | hl'
      · simp
      · exact ih l hl'
    · rename_i hc
      rcases h : splitNL cs with _ | ⟨x, xs⟩
      · exact absurd h (splitNL_ne_nil cs)
      · rw [h] at hl
        rcases List.mem_cons.mp hl with rfl | hl'
        · intro hmem
          rcases List.mem_cons.mp hmem with h1 | h1
          · exact hc h1.symm
          · exact ih x (by simp [h]) h1
        · exact ih l (by simp [h, hl'])

theorem hlGo_cat (s e : Nat) (hse : s ≤ e) :
    ∀ (lines : List (List Char)) (cur : Nat),
      joinNL ((hlGo s e lines cur).map lineCat) = joinNL lines := by
  intro lines
  induction lines with
  | nil => intro cur; rfl
  | cons line rest ih =>
    intro cur
    rcases rest with _ | ⟨r, rs⟩
    · simp [hlGo, joinNL, hlLine_cat s e cur line hse]
    · have ihr := ih (cur + line.length + 1)
      simp only [hlGo, List.map_cons, joinNL, hlLine_cat s e cur line hse]
      rw [← ihr]
      simp [hlGo, joinNL]

/-- Claim C2: for every wrapped text and every time string present
verbatim (case-insensitively) in the newline-joined wrapped text,
concatenating the texts of all styled runs produced by the highlight
splitter, in line order and within-line order and ignoring which plane or
font each run uses, reproduces the wrapped text exactly — no characters
lost or duplicated. -/
theorem highlight_runs_cover (text time : List Char)
    (hfound : (firstMatch (lowerL text) (lowerL time)).isSome) :
    joinNL ((drawQuote text time).map lineCat) = text := by
  unfold drawQuote
  obtain ⟨s, hs⟩ := Option.isSome_iff_exists.mp hfound
  rw [hs]
  rw [hlGo_cat s (s + time.length) (by omega) (splitNL text) 0]
  exact joinNL_splitNL text

/-- Witness for claim C2 at a concrete text and time string. -/
theorem highlight_runs_cover_witness :
    ((firstMatch (lowerL "ab".toList) (lowerL "A".toList)).isSome) ∧
    joinNL ((drawQuote "ab".toList "A".toList).map lineCat) = "ab".toList :=
  ⟨by decide, highlight_runs_cover "ab".toList "A".toList (by decide)⟩

theorem accentCat_cons (rs : List Run) (rss : List (List Run)) :
    accentCat (rs :: rss) =
      ((rs.filter Run.accent).map Run.text).flatten ++ accentCat rss := by
  simp [accentCat]

theorem normalCat_cons (rs : List Run) (rss : List (List Run)) :
    normalCat (rs :: rss) =
      ((rs.filter (fun r => !r.accent)).map Run.text).flatten ++ normalCat rss := by
  simp [normalCat]

theorem filter_no_newline (l : List Char) (h : '\n' ∉ l) :
    l.filter (· ≠ '\n') = l := by
  rw [List.filter_eq_self]
  intro a ha
  simp only [ne_eq, decide_eq_true_eq]
  intro hc
  exact h (hc ▸ ha)

theorem slice_filter_append (l J : List Char) (a b : Nat) (hl : '\n' ∉ l) :
    (((l ++ '\n' :: J).take b).drop a).filter (· ≠ '\n') =
      (((l.take b).drop a).filter (· ≠ '\n')) ++
        ((J.take (b - (l.length + 1))).drop (a - (l.length + 1))).filter (· ≠ '\n') := by
  rcases le_or_lt b l.length with hb | hb
  · rw [List.take_append_eq_append_take,
      show b - l.length = 0 by omega, List.take_zero, List.append_nil,
      show b - (l.length + 1) = 0 by omega, List.take_zero, List.drop_nil,
      List.filter_nil, List.append_nil]
  · rw [List.take_append_eq_append_take,
      List.take_of_length_le (by omega),
      show b - l.length = (b - (l.length + 1)) + 1 by omega]
    rcases le_or_lt a l.length with ha | ha
    · rw [List.drop_append_eq_append_drop,
        show a - l.length = 0 by omega, List.drop_zero,
        show a - (l.length + 1) = 0 by omega, List.drop_zero,
        List.take_succ_cons]
      simp [List.filter_append, List.filter_cons]
    · rw [List.drop_append_eq_append_drop,
        List.drop_eq_nil_of_le (by omega), List.nil_append,
        show a - l.length = (a - (l.length + 1)) + 1 by omega,
        List.take_succ_cons, List.drop_succ_cons]
      simp

theorem nslice_filter_append (l J : List Char) (a b : Nat) (hl : '\n' ∉ l)
    (hab : a ≤ b) :
    (((l ++ '\n' :: J).take a) ++ ((l ++ '\n' :: J).drop b)).filter (· ≠ '\n') =
      ((l.take a ++ l.drop b).filter (· ≠ '\n')) ++
        ((J.take (a - (l.length + 1)) ++
          J.drop (b - (l.length + 1))).filter (· ≠ '\n')) := by
  rcases le_or_lt a l.length with ha | ha
  · rw [List.take_append_eq_append_take, show a - l.length = 0 by omega,
      List.take_zero, List.append_nil, show a - (l.length + 1) = 0 by omega,
      List.take_zero, List.nil_append]
    rcases le_or_lt b l.length with hb | hb
    · rw [List.drop_append_eq_append_drop, show b - l.length = 0 by omega,
        List.drop_zero, show b - (l.length + 1) = 0 by omega, List.drop_zero]
      simp [List.filter_append]
    · rw [List.drop_append_eq_append_drop,
        List.drop_eq_nil_of_le (show l.length ≤ b by omega),
        List.nil_append, show b - l.length = (b - (l.length + 1)) + 1 by omega,
        List.drop_succ_cons]
      simp [List.filter_append]
  · rw [List.take_append_eq_append_take, List.take_of_length_le (by omega),
      show a - l.length = (a - (l.length + 1)) + 1 by omega,
      List.take_succ_cons, List.drop_append_eq_append_drop,
      List.drop_eq_nil_of_le (show l.length ≤ b by omega), List.nil_append,
      show b - l.length = (b - (l.length + 1)) + 1 by omega,
      List.drop_succ_cons]
    simp [List.filter_append, List.append_assoc]

theorem no_newline_slice (line : List Char) (h : '\n' ∉ line) (a b : Nat) :
    '\n' ∉ (line.take b).drop a := fun hm =>
  h ((List.Sublist.trans (List.drop_sublist _ _) (List.take_sublist _ _)).mem hm)

theorem no_newline_cut (line : List Char) (h : '\n' ∉ line) (a b : Nat) :
    '\n' ∉ line.take a ++ line.drop b := by
  intro hm
  rcases List.mem_append.mp hm with h1 | h1
  · exact h ((List.take_sublist _ _).mem h1)
  · exact h ((List.drop_sublist _ _).mem h1)

theorem hlGo_accentCat (s e : Nat) (hse : s ≤ e) :
    ∀ (lines : List (List Char)) (cur : Nat), (∀ l ∈ lines, '\n' ∉ l) →
      accentCat (hlGo s e lines cur) =
        (((joinNL lines).take (e - cur)).drop (s - cur)).filter (· ≠ '\n') := by
  intro lines
  induction lines with
  | nil => intro cur _; simp [hlGo, accentCat, joinNL]
  | cons line rest ih =>
    intro cur hnl
    have hline : '\n' ∉ line := hnl line (by simp)
    have hrest : ∀ l ∈ rest, '\n' ∉ l := fun l hl => hnl l (by simp [hl])
    rcases rest with _ | ⟨r, rs⟩
    · simp only [hlGo, accentCat_cons, hlLine_accent s e cur line hse, joinNL]
      rw [show accentCat ([] : List (List Run)) = [] from rfl, List.append_nil,
        filter_no_newline _ (no_newline_slice line hline _ _)]
    · rw [show hlGo s e (line :: r :: rs) cur =
          hlLine s e cur line :: hlGo s e (r :: rs) (cur + line.length + 1) from rfl,
        accentCat_cons, hlLine_accent s e cur line hse,
        ih (cur + line.length + 1) hrest,
        show joinNL (line :: r :: rs) = line ++ '\n' :: joinNL (r :: rs) from rfl,
        slice_filter_append line (joinNL (r :: rs)) (s - cur) (e - cur) hline,
        filter_no_newline _ (no_newline_slice line hline _ _),
        show e - cur - (line.length + 1) = e - (cur + line.length + 1) by omega,
        show s - cur - (line.length + 1) = s - (cur + line.length + 1) by omega]

theorem hlGo_normalCat (s e : Nat) (hse : s ≤ e) :
    ∀ (lines : List (List Char)) (cur : Nat), (∀ l ∈ lines, '\n' ∉ l) →
      normalCat (hlGo s e lines cur) =
        ((joinNL lines).take (s - cur) ++
          (joinNL lines).drop (e - cur)).filter (· ≠ '\n') := by
  intro lines
  induction lines with
  | nil => intro cur _; simp [hlGo, normalCat, joinNL]
  | cons line rest ih =>
    intro cur hnl
    have hline : '\n' ∉ line := hnl line (by simp)
    have hrest : ∀ l ∈ rest, '\n' ∉ l := fun l hl => hnl l (by simp [hl])
    rcases rest with _ | ⟨r, rs⟩
    · simp only [hlGo, normalCat_cons, hlLine_normal s e cur line hse, joinNL]
      rw [show normalCat ([] : List (List Run)) = [] from rfl, List.append_nil,
        filter_no_newline _ (no_newline_cut line hline _ _)]
    · rw [show hlGo s e (line :: r :: rs) cur =
          hlLine s e cur line :: hlGo s e (r :: rs) (cur + line.length + 1) from rfl,
        normalCat_cons, hlLine_normal s e cur line hse,
        ih (cur + line.length + 1) hrest,
        show joinNL (line :: r :: rs) = line ++ '\n' :: joinNL (r :: rs) from rfl,
        nslice_filter_append line (joinNL (r :: rs)) (s - cur) (e - cur) hline
          (by omega),
        filter_no_newline _ (no_newline_cut line hline _ _),
        show e - cur - (line.length + 1) = e - (cur + line.length + 1) by omega,
        show s - cur - (line.length + 1) = s - (cur + line.length + 1) by omega]

theorem firstMatchAux_spec (needle : List Char) :
    ∀ (hay : List Char) (i r : Nat), firstMatchAux needle hay i = some r →
      i ≤ r ∧ needle.isPrefixOf (hay.drop (r - i)) = true ∧
        ∀ j, i ≤ j → j < r → needle.isPrefixOf (hay.drop (j - i)) = false := by
  intro hay
  induction hay with
  | nil =>
    intro i r h
    simp only [firstMatchAux] at h
    split at h
    · rename_i hp
      have : r = i := by simpa using h.symm
      subst this
      exact ⟨le_refl _, by simpa using hp, fun j h1 h2 => absurd h1 (by omega)⟩
    · simp at h
  | cons c t ih =>
    intro i r h
    rw [firstMatchAux] at h
    split at h
    · rename_i hp
      have : r = i := by simpa using h.symm
      subst this
      exact ⟨le_refl _, by simpa using hp, fun j h1 h2 => absurd h1 (by omega)⟩
    · rename_i hp
      obtain ⟨h1, h2, h3⟩ := ih (i + 1) r h
      refine ⟨by omega, ?_, ?_⟩
      · rw [show r - i = (r - (i + 1)) + 1 by omega, List.drop_succ_cons]
        exact h2
      · intro j hj1 hj2
        rcases Nat.eq_or_lt_of_le hj1 with rfl | hj
        · rw [Nat.sub_self, List.drop_zero]
          exact Bool.not_eq_true _ ▸ hp
        · rw [show j - i = (j - (i + 1)) + 1 by omega, List.drop_succ_cons]
          exact h3 j (by omega) hj2

theorem firstMatch_spec (hay needle : List Char) (s : Nat)
    (h : firstMatch hay needle = some s) :
    needle.isPrefixOf (hay.drop s) = true ∧
      ∀ j < s, needle.isPrefixOf (hay.drop j) = false := by
  obtain ⟨_, h2, h3⟩ := firstMatchAux_spec needle hay 0 s h
  exact ⟨by simpa using h2, fun j hj => by simpa using h3 j (by omega) hj⟩

/-- Claim C10 (amended): when the time string occurs more than once
(case-insensitively) in the wrapped text, the split-out occurrence is the
one at the least character offset; the accent runs concatenate to exactly
that first occurrence's slice of the wrapped text (newline separators
removed), and the normal runs concatenate to exactly the remainder of the
text — hence every later occurrence disjoint from the first is rendered
entirely inside ordinary normal-plane runs. -/
theorem first_occurrence_only_accent (text time : List Char) (s q : Nat)
    (hfind : firstMatch (lowerL text) (lowerL time) = some s)
    (hq : (lowerL time).isPrefixOf ((lowerL text).drop q) = true)
    (hlater : s + time.length ≤ q) :
    (∀ j < s, (lowerL time).isPrefixOf ((lowerL text).drop j) = false) ∧
    accentCat (drawQuote text time) =
      ((text.take (s + time.length)).drop s).filter (· ≠ '\n') ∧
    normalCat (drawQuote text time) =
      (text.take s ++ text.drop (s + time.length)).filter (· ≠ '\n') := by
  obtain ⟨hpre, hmin⟩ := firstMatch_spec (lowerL text) (lowerL time) s hfind
  refine ⟨hmin, ?_, ?_⟩
  · unfold drawQuote
    rw [hfind]
    rw [hlGo_accentCat s (s + time.length) (by omega) (splitNL text) 0
      (splitNL_no_newline text), joinNL_splitNL, Nat.sub_zero, Nat.sub_zero]
  · unfold drawQuote
    rw [hfind]
    rw [hlGo_normalCat s (s + time.length) (by omega) (splitNL text) 0
      (splitNL_no_newline text), joinNL_splitNL, Nat.sub_zero, Nat.sub_zero]

/-- Witness for claim C10's amended theorem: "ab" occurs at offsets 0 and
3 of "ab ab". -/
theorem first_occurrence_only_accent_witness :
    (firstMatch (lowerL "ab ab".toList) (lowerL "ab".toList) = some 0 ∧
      (lowerL "ab".toList).isPrefixOf ((lowerL "ab ab".toList).drop 3) = true ∧
      0 + "ab".toList.length ≤ 3) ∧
    ((∀ j < 0, (lowerL "ab".toList).isPrefixOf ((lowerL "ab ab".toList).drop j) = false) ∧
    accentCat (drawQuote "ab ab".toList "ab".toList) =
      (("ab ab".toList.take (0 + "ab".toList.length)).drop 0).filter (· ≠ '\n') ∧
    normalCat (drawQuote "ab ab".toList "ab".toList) =
      ("ab ab".toList.take 0 ++ "ab ab".toList.drop (0 + "ab".toList.length)).filter (· ≠ '\n')) :=
  ⟨⟨by decide, by decide, by decide⟩,
    first_occurrence_only_accent "ab ab".toList "ab".toList 0 3
      (by decide) (by decide) (by decide)⟩

theorem truncLoop_spec (measure1 : List Char → Nat) (metaText : List Char)
    (maxW : Nat) : ∀ fuel : Nat,
      measure1 (truncLoop measure1 metaText maxW fuel) ≤ maxW ∨
      (truncLoop measure1 metaText maxW fuel = metaText ∧
        ∀ i, 0 < i → i ≤ fuel → maxW < measure1 (metaText.take i ++ ellipsisL)) := by
  intro fuel
  induction fuel with
  | zero => exact Or.inr ⟨rfl, fun i h1 h2 => absurd h1 (by omega)⟩
  | succ n ih =>
    simp only [truncLoop]
    split
    · exact Or.inl (by assumption)
    · rename_i hfail
      rcases ih with h | ⟨heq, hall⟩
      · exact Or.inl h
      · refine Or.inr ⟨heq, fun i h1 h2 => ?_⟩
        rcases Nat.eq_or_lt_of_le h2 with rfl | hlt
        · omega
        · exact hall i h1 (by omega)

/-- Claim C4 (amended): the caption fitting step either returns a caption
whose measured width at the chosen caption size is at most max_width, or —
in the corner case where every tested truncation `prefix + "..."` (prefix
lengths from one below the full length down to 1) exceeds max_width — it
returns the full caption text unchanged, wider than max_width.  The source
never tests the ellipsis alone and reports no `fits` flag. -/
theorem caption_fit_or_untruncated (measure : Nat → List Char → Nat)
    (metaText : List Char) (qsize maxW : Nat) :
    measure (fitCaption measure metaText qsize maxW).1
        (fitCaption measure metaText qsize maxW).2 ≤ maxW ∨
    ((fitCaption measure metaText qsize maxW).2 = metaText ∧
      ∀ i, 0 < i → i < metaText.length →
        maxW < measure (fitCaption measure metaText qsize maxW).1
          (metaText.take i ++ ellipsisL)) := by
  unfold fitCaption
  simp only
  split
  · rename_i hwide
    rcases truncLoop_spec
        (measure (shrinkSize measure metaText maxW
          ((sizesAsc.filter (· ≤ snapMetaSize (qsize / 2))).reverse)))
        metaText maxW (metaText.length - 1) with h | ⟨heq, hall⟩
    · exact Or.inl h
    · exact Or.inr ⟨heq, fun i h1 h2 => hall i h1 (by omega)⟩
  · rename_i hfit
    exact Or.inl (by omega)

/-- Claim C8 (amended): only an empty time string is treated as not
found: the quote is rendered as plain normal-plane lines and no standalone
time run is produced.  A non-empty, whitespace-only time string is searched
like any other string (see the counterexample). -/
theorem empty_time_plain_plan (measure : Nat → List Char → Nat)
    (quote title author : List Char) :
    (createImagePlan measure quote [] title author).quoteRuns =
      (createImagePlan measure quote [] title author).wrapped.map
        (fun l => [⟨false, l⟩]) ∧
    (createImagePlan measure quote [] title author).standalone = none := by
  unfold createImagePlan
  simp

theorem find?_sorted_min {p : Nat → Bool} :
    ∀ l : List Nat, l.Pairwise (· ≤ ·) → ∀ a, l.find? p = some a →
      ∀ b ∈ l, p b = true → a ≤ b := by
  intro l
  induction l with
  | nil => intro _ a h; simp at h
  | cons x xs ih =>
    intro hpair a h b hb hpb
    rw [List.find?] at h
    split at h
    · have : a = x := by simpa using h.symm
      subst this
      rcases List.mem_cons.mp hb with rfl | hb'
      · exact le_refl _
      · exact (List.pairwise_cons.mp hpair).1 b hb'
    · rename_i hpx
      rcases List.mem_cons.mp hb with rfl | hb'
      · rw [hpb] at hpx; simp at hpx
      · exact ih (List.pairwise_cons.mp hpair).2 a h b hb' hpb

/-- Claim C9 (amended): whenever the time string is non-empty and not
found case-insensitively in the raw quote text, every quote line is
rendered as a single normal-plane run and a standalone accent time run is
produced whose font size is the smallest candidate greater than or equal to
`int(1.2 × quote size)` (the floor, `6·size/5`), or the largest candidate
(200) if no candidate is that large. -/
theorem standalone_time_plan (measure : Nat → List Char → Nat)
    (quote time title author : List Char)
    (ht : time ≠ [])
    (hnf : firstMatch (lowerL quote) (lowerL time) = none) :
    (createImagePlan measure quote time title author).quoteRuns =
      (createImagePlan measure quote time title author).wrapped.map
        (fun l => [⟨false, l⟩]) ∧
    (createImagePlan measure quote time title author).standalone =
      some (standaloneSize (createImagePlan measure quote time title author).quoteSize,
        time) ∧
    (∀ qs : Nat, 6 * qs / 5 ≤ 200 →
      standaloneSize qs ∈ sizesAsc ∧ 6 * qs / 5 ≤ standaloneSize qs ∧
        ∀ t ∈ sizesAsc, 6 * qs / 5 ≤ t → standaloneSize qs ≤ t) ∧
    (∀ qs : Nat, 200 < 6 * qs / 5 → standaloneSize qs = 200) := by
  refine ⟨?_, ?_, ?_, ?_⟩
  · unfold createImagePlan
    simp [hnf]
  · unfold createImagePlan
    simp [hnf, ht]
  · intro qs hqs
    have hmem200 : (200 : Nat) ∈ sizesAsc := by decide
    have hex : (sizesAsc.find? (fun t => decide (6 * qs / 5 ≤ t))).isSome := by
      rw [List.find?_isSome]
      exact ⟨200, hmem200, by simpa using hqs⟩
    obtain ⟨a, ha⟩ := Option.isSome_iff_exists.mp hex
    have hmem := List.mem_of_find?_eq_some ha
    have hpa := List.find?_some ha
    have hsorted : sizesAsc.Pairwise (· ≤ ·) := by decide
    refine ⟨?_, ?_, ?_⟩
    · unfold standaloneSize; rw [ha]; exact hmem
    · unfold standaloneSize; rw [ha]; simpa using hpa
    · intro t htm htge
      unfold standaloneSize; rw [ha]
      exact find?_sorted_min sizesAsc hsorted a ha t htm (by simpa using htge)
  · intro qs hqs
    have hnone : sizesAsc.find? (fun t => decide (6 * qs / 5 ≤ t)) = none := by
      rw [List.find?_eq_none]
      intro x hx
      simp only [decide_eq_true_eq]
      have : x ≤ 200 := by
        have : ∀ y ∈ sizesAsc, y ≤ 200 := by decide
        exact this x hx
      omega
    unfold standaloneSize
    rw [hnone]
    decide

/-- Witness for claim C9's amended theorem at a concrete instance. -/
theorem standalone_time_plan_witness :
    ("b".toList ≠ [] ∧
      firstMatch (lowerL "a".toList) (lowerL "b".toList) = none) ∧
    ((createImagePlan (fun _ l => l.length) "a".toList "b".toList [] []).quoteRuns =
      (createImagePlan (fun _ l => l.length) "a".toList "b".toList [] []).wrapped.map
        (fun l => [⟨false, l⟩]) ∧
    (createImagePlan (fun _ l => l.length) "a".toList "b".toList [] []).standalone =
      some (standaloneSize
        (createImagePlan (fun _ l => l.length) "a".toList "b".toList [] []).quoteSize,
        "b".toList) ∧
    (∀ qs : Nat, 6 * qs / 5 ≤ 200 →
      standaloneSize qs ∈ sizesAsc ∧ 6 * qs / 5 ≤ standaloneSize qs ∧
        ∀ t ∈ sizesAsc, 6 * qs / 5 ≤ t → standaloneSize qs ≤ t) ∧
    (∀ qs : Nat, 200 < 6 * qs / 5 → standaloneSize qs = 200)) :=
  ⟨⟨by decide, by decide⟩,
    standalone_time_plan (fun _ l => l.length) "a".toList "b".toList [] []
      (by decide) (by decide)⟩

/-- Claim C7 (amended): every line height used by the engine equals the
truncation (floor) of `size × 1.2` — Python `int(size * 1.2)` — and not the
nearest integer. -/
theorem lineHeight_eq_floor (size : Nat) :
    lineHeight size = Nat.floor ((size : ℚ) * 1.2) := by
  have h : ((size : ℚ) * 1.2) = ((6 * size : ℕ) : ℚ) / ((5 : ℕ) : ℚ) := by
    push_cast; ring
  rw [h, Nat.floor_div_nat, Nat.floor_natCast]
  rfl

/-- Claim C7 counterexample: at candidate size 24 the source computes
`int(24 × 1.2) = 28`, while rounding `28.8` to the nearest integer gives 29,
so the line height is not `round(size × 1.2)`. -/
theorem lineHeight_round_cex :
    (lineHeight 24 : ℤ) ≠ round ((24 : ℚ) * 1.2) ∧ lineHeight 24 = 28 ∧
      round ((24 : ℚ) * 1.2) = 29 := by
  have h : round ((24 : ℚ) * 1.2) = 29 := by norm_num [round_eq]
  exact ⟨by rw [h]; decide, by decide, h⟩

/-- Claim C3 counterexample: an unbroken word wider than max_width wraps to
two lines (an empty line, then the word), not one; and for a word wider
than the available width at every candidate size the selector returns the
largest vertically fitting candidate (here 200), not the smallest (16). -/
theorem long_word_wrap_cex :
    wrapText (fun l => l.length) "abcd".toList 3 = [[], "abcd".toList] ∧
    (wrapText (fun l => l.length) "abcd".toList 3).length = 2 ∧
    (∀ s ∈ sizesDesc, 100 < s * ("abcdefghij".toList).length) ∧
    selectFont (fun s l => s * l.length) sizesDesc "abcdefghij".toList 100 600 =
      (200, [[], "abcdefghij".toList]) ∧
    minSize sizesDesc = 16 ∧ (200 : Nat) ≠ 16 := by decide

/-- Claim C4 counterexample: with an em-dash a hundred times wider than the
other glyphs, every truncation `prefix + "..."` of the caption is too wide
but the ellipsis alone fits; the fitter returns the full caption,
untruncated and wider than max_width, so the corner case is not "even the
ellipsis fails to fit" and no `fits = false` is reported. -/
theorem caption_overwide_cex :
    fitCaption (fun s l => s * (l.map (fun c => if c = '—' then 100 else 1)).sum)
        "—B, A".toList 40 880 = (16, "—B, A".toList) ∧
    880 < 16 * (("—B, A".toList).map (fun c => if c = '—' then 100 else 1)).sum ∧
    16 * (ellipsisL.map (fun c => if c = '—' then 100 else 1)).sum ≤ 880 := by
  decide

/-- Claim C8 counterexample: for quote "a b c d" and the whitespace-only
time string " ", the pipeline takes the highlight branch and emits an
accent run containing the space — the whitespace-only time string is not
treated as "not found". -/
theorem whitespace_time_highlighted_cex :
    (∀ c ∈ " ".toList, c.isWhitespace = true) ∧ " ".toList ≠ [] ∧
    (createImagePlan (fun s l => s * l.length) "a b c d".toList " ".toList
        [] []).quoteRuns =
      [[⟨false, ['a']⟩, ⟨true, [' ']⟩, ⟨false, ['b']⟩],
        [⟨false, "c d".toList⟩]] ∧
    ((createImagePlan (fun s l => s * l.length) "a b c d".toList " ".toList
        [] []).quoteRuns.flatten.any Run.accent) = true := by decide

/-- Claim C9 counterexample.  First scenario: a proportional font on which
the selector picks quote size 24; the code derives the standalone time size
`28 = int(28.8)` (28 is an available candidate), while the smallest
candidate at least `1.2 × 24 = 28.8` is 32.  Second scenario: the time
string "x y" is absent from the wrapped text "x\ny" (the wrap replaced its
space by a newline) yet present in the raw quote, so the highlight branch
runs and no standalone time run is produced at all. -/
theorem standalone_size_cex :
    (createImagePlan (fun s l => 8 * s * l.length)
        (String.intercalate " " (List.replicate 20 "aa")).toList
        "b".toList [] []).quoteSize = 24 ∧
    (createImagePlan (fun s l => 8 * s * l.length)
        (String.intercalate " " (List.replicate 20 "aa")).toList
        "b".toList [] []).standalone = some (28, "b".toList) ∧
    sizesAsc.find? (fun s => decide (144 ≤ 5 * s)) = some 32 ∧ (28 : Nat) ≠ 32 ∧
    firstMatch
      (lowerL (joinNL (createImagePlan (fun s l => 2 * s * l.length)
        "x y".toList "x y".toList [] []).wrapped))
      (lowerL "x y".toList) = none ∧
    (createImagePlan (fun s l => 2 * s * l.length)
        "x y".toList "x y".toList [] []).standalone = none := by decide

/-- Claim C10 counterexample: in "aaa" the time string "AA" occurs at
offsets 0 and 1 (overlapping); the accent run "aa" covers offsets 0 and 1,
so the later occurrence is partly highlighted — its two characters cannot
lie inside the normal runs, whose concatenation is the single character
"a". -/
theorem overlapping_occurrence_cex :
    drawQuote "aaa".toList "AA".toList =
      [[⟨true, "aa".toList⟩, ⟨false, "a".toList⟩]] ∧
    firstMatch (lowerL "aaa".toList) (lowerL "AA".toList) = some 0 ∧
    (lowerL "AA".toList).isPrefixOf ((lowerL "aaa".toList).drop 1) = true ∧
    normalCat (drawQuote "aaa".toList "AA".toList) = "a".toList := by decide
